import Mathlib

/-
Shallow embedding of the caching/expiry core of src/Backend/server.js
(URL shortener backend): the MinHeap TTL priority queue, the LRU cache
kept in a JS Map, the operation logs, the expiry sweeper, and the
GET /:shortCode lookup route.

Modelling conventions:
- JS Maps and the MongoDB collection (keyed by the unique shortCode
  index) are association lists in insertion order.
- Date instants are integers (milliseconds since epoch); the Date
  comparisons in the source coerce to numbers, so integer comparison is
  exact.
- The wall-clock timing fields of log records (performance.now
  durations, Date.now timestamps) are nondeterministic observability
  data and are not modelled; the remaining record fields are.
- While-loops are modelled by fuelled structural recursion.  Each loop
  in the source has a strictly monotone index (sift index up/down) or a
  strictly shrinking heap, so the initial index resp. the heap size
  bounds the number of iterations and the fuel never runs out.
-/

/-! ## Generic list helpers (array reads/writes used by the heap) -/

/-- Read element i, with the default element past the end (JS array reads
are always in bounds at the call sites below). -/
def nthD {α : Type} [Inhabited α] : List α → Nat → α
  | [], _ => default
  | x :: _, 0 => x
  | _ :: t, i + 1 => nthD t i

/-- Write element i in place; out-of-range writes are dropped. -/
def setN {α : Type} : List α → Nat → α → List α
  | [], _, _ => []
  | _ :: t, 0, y => y :: t
  | x :: t, i + 1, y => x :: setN t i y

/-- Swap the elements at positions i and j, as in MinHeap.swap
(server.js line 66). -/
def swapN {α : Type} [Inhabited α] (l : List α) (i j : Nat) : List α :=
  setN (setN l i (nthD l j)) j (nthD l i)

/-- Index of the first element satisfying p, as in Array.prototype.findIndex
(none when JS returns -1). -/
def findIndexP {α : Type} (p : α → Bool) : List α → Option Nat
  | [] => none
  | x :: t => if p x then some 0 else (findIndexP p t).map (· + 1)

/-! ## Association-list operations (JS Map / MongoDB collection) -/

/-- Map.has / a findOne hit test: is the key present. -/
def assocHas {β : Type} : List (String × β) → String → Bool
  | [], _ => false
  | p :: t, k => p.1 == k || assocHas t k

/-- Map.get / Url.findOne: first binding of the key. -/
def assocFind? {β : Type} : List (String × β) → String → Option β
  | [], _ => none
  | p :: t, k => if p.1 == k then some p.2 else assocFind? t k

/-- Map.delete / Url.deleteOne: remove the (unique) binding of the key;
on a list with duplicate keys only the first binding is removed, which
is how deleteOne behaves on MongoDB as well. -/
def assocDelete {β : Type} : List (String × β) → String → List (String × β)
  | [], _ => []
  | p :: t, k => if p.1 == k then t else p :: assocDelete t k

/-- Map.set: update in place when the key is present (JS Maps keep the
original insertion position), append otherwise. -/
def assocSet {β : Type} : List (String × β) → String → β → List (String × β)
  | [], k, v => [(k, v)]
  | p :: t, k, v => if p.1 == k then (k, v) :: t else p :: assocSet t k v

/-- Keys are pairwise distinct (every list of bindings that denotes an
actual JS Map or a MongoDB collection with a unique index satisfies
this). -/
def keysNodup {β : Type} (m : List (String × β)) : Prop :=
  (m.map Prod.fst).Nodup

instance keysNodupDecidable {β : Type} [DecidableEq β] (m : List (String × β)) :
    Decidable (keysNodup m) := by
  unfold keysNodup
  infer_instance

/-! ## MinHeap (server.js lines 50-147) -/

namespace MinHeap

/-- Heap element: `{ shortCode, expiresAt }` (server.js line 52). -/
structure Entry where
  shortCode : String
  expiresAt : Int
deriving DecidableEq, Repr, Inhabited

/-- getParentIndex (line 56): Math.floor((i-1)/2).  Guarded by 0 < i at
every use, where Nat and JS arithmetic agree. -/
def getParentIndex (i : Nat) : Nat := (i - 1) / 2

/-- heapifyUp (lines 104-110): bubble the element at index i up while it
is strictly smaller than its parent.  The loop index strictly decreases,
so i units of fuel cover every iteration. -/
def heapifyUpFuel (l : List Entry) (i : Nat) : Nat → List Entry
  | 0 => l
  | fuel + 1 =>
    if 0 < i ∧ (nthD l (getParentIndex i)).expiresAt > (nthD l i).expiresAt then
      heapifyUpFuel (swapN l (getParentIndex i) i) (getParentIndex i) fuel
    else l

/-- heapifyUp starts at the last index (this.heap.length - 1, line 105). -/
def heapifyUp (l : List Entry) : List Entry :=
  heapifyUpFuel l (l.length - 1) (l.length - 1)

/-- insert (lines 80-86): push then sift up.  (The HEAP_INSERT log entry
is emitted by the wrapper at the call site of the state-level model.) -/
def insert (l : List Entry) (shortCode : String) (expiresAt : Int) : List Entry :=
  heapifyUp (l ++ [⟨shortCode, expiresAt⟩])

/-- Index of the smaller child of i (lines 116-119): the right child
when it exists and is strictly smaller than the left child, else the
left child. -/
def smallerChildIndex (l : List Entry) (i : Nat) : Nat :=
  if 2 * i + 2 < l.length ∧
      (nthD l (2 * i + 2)).expiresAt < (nthD l (2 * i + 1)).expiresAt then
    2 * i + 2
  else
    2 * i + 1

/-- heapifyDown (lines 113-126) from index i: sift down towards the
smaller child while strictly greater than it.  The index strictly
increases and stays below the length, so length - i fuel suffices. -/
def heapifyDownFuel (l : List Entry) (i : Nat) : Nat → List Entry
  | 0 => l
  | fuel + 1 =>
    if 2 * i + 1 < l.length then
      if (nthD l i).expiresAt ≤ (nthD l (smallerChildIndex l i)).expiresAt then l
      else
        heapifyDownFuel (swapN l i (smallerChildIndex l i)) (smallerChildIndex l i) fuel
    else l

/-- heapifyDown always starts at the root (line 114). -/
def heapifyDown (l : List Entry) : List Entry :=
  heapifyDownFuel l 0 l.length

/-- peek (lines 71-73). -/
def peek (l : List Entry) : Option Entry :=
  match l with
  | [] => none
  | x :: _ => some x

/-- extractMin (lines 89-101): capture the root, pop the last element,
and if the heap is still nonempty move the popped element to the root
and sift it down.  Returns the extracted minimum and the new heap. -/
def extractMin (l : List Entry) : Option Entry × List Entry :=
  match l with
  | [] => (none, [])
  | x :: xs =>
    let last := (x :: xs).getLastD default
    let popped := (x :: xs).dropLast
    if 0 < popped.length then (some x, heapifyDown (setN popped 0 last))
    else (some x, popped)

/-- Insertion step of getAll's ascending sort. -/
def insertSorted (e : Entry) : List Entry → List Entry
  | [] => [e]
  | x :: t => if e.expiresAt < x.expiresAt then e :: x :: t else x :: insertSorted e t

/-- getAll (lines 129-131): a copy of the array sorted ascending by
expiresAt (used for the heapItems snapshot of /live-operations). -/
def getAll : List Entry → List Entry
  | [] => []
  | x :: t => insertSorted x (getAll t)

/-- remove (lines 134-146): find the key, pop the last element, and when
the removed position is still inside the array overwrite it with the
popped element and call heapifyDown() then heapifyUp() -- note that in
the source those two methods take no start index: they sift from the
root resp. from the last index, not from the replaced position. -/
def remove (l : List Entry) (shortCode : String) : Bool × List Entry :=
  match findIndexP (fun e => e.shortCode == shortCode) l with
  | none => (false, l)
  | some index =>
    let last := l.getLastD default
    let popped := l.dropLast
    if index < popped.length then
      (true, heapifyUp (heapifyDown (setN popped index last)))
    else (true, popped)

/-- Invariant I3 in parent form: every non-root entry is at least its
parent's expiry instant. -/
def heapProp (l : List Entry) : Prop :=
  ∀ j < l.length, 0 < j →
    (nthD l (getParentIndex j)).expiresAt ≤ (nthD l j).expiresAt

instance heapPropDecidable (l : List Entry) : Decidable (heapProp l) := by
  unfold heapProp; infer_instance

/-- Invariant I3 as the spec states it: every entry's expiry instant is
at most both its children's expiry instants. -/
def childrenLeProp (l : List Entry) : Prop :=
  ∀ i < l.length, ∀ c < l.length, (c = 2 * i + 1 ∨ c = 2 * i + 2) →
    (nthD l i).expiresAt ≤ (nthD l c).expiresAt

instance childrenLePropDecidable (l : List Entry) : Decidable (childrenLeProp l) := by
  unfold childrenLeProp; infer_instance

end MinHeap

/-! ## Operation logs (server.js lines 151-169 and 203-268) -/

/-- One entry of operationLog / heapOperationLog.  The source fields
time (performance.now duration) and timestamp (Date.now) are wall-clock
observability data and are not modelled. -/
structure OpRecord where
  type : String
  key : Option String
  complexity : String
  details : Option String
  size : Nat
deriving DecidableEq, Repr

/-- logOperation (lines 253-268): push a record carrying the current
cache size, then drop the oldest record once the log exceeds 100. -/
def logOperation (cacheSize : Nat) (log : List OpRecord)
    (type key complexity : String) (details : Option String) : List OpRecord :=
  let r : OpRecord :=
    { type := type
      key := if key = "" then none else some key  -- JS truthiness of key
      complexity := complexity
      details := details
      size := cacheSize }
  let l := log ++ [r]
  if l.length > 100 then l.drop 1 else l

/-- logHeapOperation (lines 154-169): same shape, retention 50, size
field holding the heap size. -/
def logHeapOperation (heapSize : Nat) (log : List OpRecord)
    (type key complexity : String) (details : Option String) : List OpRecord :=
  let r : OpRecord :=
    { type := type
      key := if key = "" then none else some key
      complexity := complexity
      details := details
      size := heapSize }
  let l := log ++ [r]
  if l.length > 50 then l.drop 1 else l

/-! ## LRU cache (server.js lines 203-250) -/

/-- MAX_CACHE_SIZE (line 203). -/
def MAX_CACHE_SIZE : Nat := 5

/-- Eviction block of addToCache (lines 216-224): at or above capacity,
log EVICT -- before the deletion, with the pre-eviction size -- and
delete the first (least recently used) key.  On an empty Map
urlCache.keys().next().value is undefined and Map.delete(undefined) is a
no-op; the EVICT record then carries key null. -/
def evictIfFull (cap : Nat) (c1 : List (String × String)) (log : List OpRecord) :
    List (String × String) × List OpRecord :=
  if c1.length ≥ cap then
    match c1 with
    | [] => (c1, logOperation c1.length log "EVICT" "" "O(1)" none)
    | p :: _ =>
      (assocDelete c1 p.1, logOperation c1.length log "EVICT" p.1 "O(1)" none)
  else (c1, log)

/-- addToCache (lines 208-232), with the capacity as a parameter (the
source reads the global MAX_CACHE_SIZE): delete the key when already
present, evict the first (least recently used) key when at capacity,
then set at the end and log SET. -/
def addToCache (cap : Nat) (cache : List (String × String)) (log : List OpRecord)
    (shortCode url : String) : List (String × String) × List OpRecord :=
  let c1 := if assocHas cache shortCode then assocDelete cache shortCode else cache
  let step2 := evictIfFull cap c1 log
  let c3 := assocSet step2.1 shortCode url
  (c3, logOperation c3.length step2.2 "SET" shortCode "O(1)" none)

/-- getFromCache (lines 234-250): null on a miss with no state change;
on a hit, reposition the key at the most-recently-used end and log HIT.
Returns (value, cache, log). -/
def getFromCache (cache : List (String × String)) (log : List OpRecord)
    (shortCode : String) : Option String × List (String × String) × List OpRecord :=
  if assocHas cache shortCode then
    let url := (assocFind? cache shortCode).getD ""
    let c1 := assocSet (assocDelete cache shortCode) shortCode url
    (some url, c1, logOperation c1.length log "HIT" shortCode "O(1)" none)
  else (none, cache, log)

/-- One cache operation of a Put/Get trace. -/
inductive CacheOp where
  | put (shortCode url : String)
  | get (shortCode : String)
deriving DecidableEq, Repr

/-- Apply one trace operation to (cache, log). -/
def applyCacheOpAt (cap : Nat) (st : List (String × String) × List OpRecord)
    (op : CacheOp) : List (String × String) × List OpRecord :=
  match op with
  | .put k v => addToCache cap st.1 st.2 k v
  | .get k =>
    let r := getFromCache st.1 st.2 k
    (r.2.1, r.2.2)

/-- Run a trace from the empty cache and empty log. -/
def runCacheOpsAt (cap : Nat) (ops : List CacheOp) :
    List (String × String) × List OpRecord :=
  ops.foldl (applyCacheOpAt cap) ([], [])

/-- Run a trace at the source's capacity MAX_CACHE_SIZE = 5. -/
def runCacheOps (ops : List CacheOp) : List (String × String) × List OpRecord :=
  runCacheOpsAt MAX_CACHE_SIZE ops

/-! ## Durable store records (urlSchema, lines 35-45) and expiry -/

/-- expiryType enum values 'time' and 'clicks'. -/
inductive ExpiryKind where
  | time
  | clicks
deriving DecidableEq, Repr

/-- The fields of a Url document the core reads (shortCode is the
association-list key). -/
structure LinkRecord where
  url : String
  clicks : Nat
  expiryType : Option ExpiryKind
  expiresAt : Option Int
  maxClicks : Option Nat
deriving DecidableEq, Repr

/-- isExpired (lines 290-295), including the JS truthiness guards: a
null expiresAt or a null/zero maxClicks never counts as expired. -/
def isExpired (now : Int) (d : LinkRecord) : Bool :=
  match d.expiryType with
  | none => false
  | some .time =>
    match d.expiresAt with
    | some t => now > t
    | none => false
  | some .clicks =>
    match d.maxClicks with
    | some m => decide (m ≠ 0) && decide (d.clicks ≥ m)
    | none => false

/-- Url.updateOne({shortCode}, { $inc: { clicks: 1 } }) resp. the
urlData.clicks++; urlData.save() path: bump the click count of the
(unique) record with that key. -/
def incClicks : List (String × LinkRecord) → String → List (String × LinkRecord)
  | [], _ => []
  | (k', d) :: t, k =>
    if k' == k then (k', { d with clicks := d.clicks + 1 }) :: t
    else (k', d) :: incClicks t k

/-! ## Server state, lookup route, sweeper -/

/-- The mutable globals of server.js that the core touches: urlCache,
the Url collection, ttlHeap.heap, operationLog, heapOperationLog. -/
structure ServerState where
  cache : List (String × String)
  store : List (String × LinkRecord)
  heap : List MinHeap.Entry
  opLog : List OpRecord
  heapLog : List OpRecord
deriving DecidableEq, Repr

/-- Outcome of GET /:shortCode: a 302 redirect, a 404, or a 410
(expired). -/
inductive LookupOutcome where
  | redirect (url : String)
  | notFound
  | expired
deriving DecidableEq, Repr

/-- Reason string attached to EXPIRED records (lines 487 and 524). -/
def expiredReason (d : LinkRecord) : String :=
  if d.expiryType = some ExpiryKind.time then "Time Limit Reached"
  else "Max Clicks Reached"

/-- Cache-miss continuation of GET /:shortCode (lines 509-551); c1/log1
are the cache and log after the getFromCache call (the call reorders the
cache and logs HIT even when the route then treats an empty-string URL
as falsy). -/
def lookupMiss (s : ServerState) (now : Int) (shortCode : String)
    (c1 : List (String × String)) (log1 : List OpRecord) :
    LookupOutcome × ServerState :=
  let log2 := logOperation c1.length log1 "MISS" shortCode "DB Search" none
  match assocFind? s.store shortCode with
  | none => (.notFound, { s with cache := c1, opLog := log2 })
  | some d =>
    if isExpired now d then
      let c2 := if assocHas c1 shortCode then assocDelete c1 shortCode else c1
      let st2 := assocDelete s.store shortCode
      let log3 := logOperation c2.length log2 "EXPIRED" shortCode "Deletion"
        (some (expiredReason d))
      (.expired, { s with cache := c2, store := st2, opLog := log3 })
    else
      let r := addToCache MAX_CACHE_SIZE c1 log2 shortCode d.url
      (.redirect d.url,
        { s with cache := r.1, store := incClicks s.store shortCode, opLog := r.2 })

/-- GET /:shortCode (lines 465-556).  The heap and the heap log are
never touched by this route. -/
def lookupRoute (s : ServerState) (now : Int) (shortCode : String) :
    LookupOutcome × ServerState :=
  if shortCode = "heap-state" ∨ shortCode = "favicon.ico" then (.notFound, s)
  else
    let g := getFromCache s.cache s.opLog shortCode
    match g.1 with
    | some u =>
      if u ≠ "" then  -- JS truthiness of the cached string
        match assocFind? s.store shortCode with
        | some d =>
          if isExpired now d then
            let c2 := assocDelete g.2.1 shortCode
            let st2 := assocDelete s.store shortCode
            let log2 := logOperation c2.length g.2.2 "EXPIRED" shortCode "Deletion"
              (some (expiredReason d))
            (.expired, { s with cache := c2, store := st2, opLog := log2 })
          else
            (.redirect u,
              { s with cache := g.2.1, store := incClicks s.store shortCode,
                       opLog := g.2.2 })
        | none =>
          -- record already gone: no expiry check, no click increment,
          -- serve the cached redirect.
          (.redirect u, { s with cache := g.2.1, opLog := g.2.2 })
      else lookupMiss s now shortCode g.2.1 g.2.2
    | none => lookupMiss s now shortCode g.2.1 g.2.2

/-- One iteration body of the sweeper loop (lines 178-192): extract the
minimum, delete its record from the store, remove its key from the cache
when present, and log EXPIRED / HEAP_EXTRACT / TTL_EXPIRED. -/
def sweepExpireOne (s : ServerState) : ServerState :=
  match MinHeap.extractMin s.heap with
  | (none, _) => s  -- unreachable: only called on a nonempty heap
  | (some m, heap') =>
    let heapLog1 := logHeapOperation heap'.length s.heapLog "HEAP_EXTRACT"
      m.shortCode "O(log n)" (some "Time Limit Reached - Removed from queue")
    let st := assocDelete s.store m.shortCode
    let c := if assocHas s.cache m.shortCode then assocDelete s.cache m.shortCode
             else s.cache
    let log := logOperation c.length s.opLog "EXPIRED" m.shortCode "Heap Extract"
      (some "Time Limit Reached (Priority Queue Cleaned)")
    let heapLog2 := logHeapOperation heap'.length heapLog1 "TTL_EXPIRED"
      m.shortCode "Heap Extract" (some "Time Limit Reached")
    { cache := c, store := st, heap := heap', opLog := log, heapLog := heapLog2 }

/-- The sweeper's while loop (lines 172-198): keep expiring the heap
minimum while it is at or before now, stop at the first future entry.
The heap shrinks by one per iteration, so its size bounds the fuel.
The source re-reads the clock each iteration; with a monotone clock the
fixed now here is the tick's start time, a lower bound for every clock
read of the tick. -/
def sweeperTickFuel (s : ServerState) (now : Int) : Nat → ServerState
  | 0 => s
  | fuel + 1 =>
    match s.heap with
    | [] => s
    | top :: _ =>
      if top.expiresAt ≤ now then sweeperTickFuel (sweepExpireOne s) now fuel
      else s

/-- One tick of the setInterval sweeper. -/
def sweeperTick (s : ServerState) (now : Int) : ServerState :=
  sweeperTickFuel s now s.heap.length

/-- Premise of the reconciliation-safety claim, phrased on the store: the
key's record, when still present, has a time-based expiry whose instant
has passed. -/
def storeTimeExpiredOrGone (st : List (String × LinkRecord)) (k : String)
    (now : Int) : Bool :=
  match assocFind? st k with
  | none => true
  | some d => d.expiryType == some ExpiryKind.time && isExpired now d

/-! ## Basic lemmas about the array primitives -/

theorem length_setN {α : Type} (l : List α) (i : Nat) (y : α) :
    (setN l i y).length = l.length := by
  induction l generalizing i with
  | nil => rfl
  | cons x t ih =>
    cases i with
    | zero => rfl
    | succ n => simp [setN, ih]

theorem nthD_setN_self {α : Type} [Inhabited α] (l : List α) (i : Nat) (y : α)
    (h : i < l.length) : nthD (setN l i y) i = y := by
  induction l generalizing i with
  | nil => simp at h
  | cons x t ih =>
    cases i with
    | zero => rfl
    | succ n => exact ih n (by simpa using h)

theorem nthD_setN_ne {α : Type} [Inhabited α] (l : List α) (i j : Nat) (y : α)
    (h : j ≠ i) : nthD (setN l i y) j = nthD l j := by
  induction l generalizing i j with
  | nil => rfl
  | cons x t ih =>
    cases i with
    | zero =>
      cases j with
      | zero => exact absurd rfl h
      | succ m => rfl
    | succ n =>
      cases j with
      | zero => rfl
      | succ m => exact ih n m (by omega)

theorem length_swapN {α : Type} [Inhabited α] (l : List α) (i j : Nat) :
    (swapN l i j).length = l.length := by
  simp [swapN, length_setN]

theorem nthD_swapN_fst {α : Type} [Inhabited α] (l : List α) (i j : Nat)
    (hi : i < l.length) (hj : j < l.length) : nthD (swapN l i j) i = nthD l j := by
  unfold swapN
  by_cases hij : i = j
  · subst hij
    rw [nthD_setN_self _ _ _ (by simpa [length_setN] using hi)]
  · rw [nthD_setN_ne _ _ _ _ hij, nthD_setN_self _ _ _ hi]

theorem nthD_swapN_snd {α : Type} [Inhabited α] (l : List α) (i j : Nat)
    (hj : j < l.length) : nthD (swapN l i j) j = nthD l i := by
  unfold swapN
  rw [nthD_setN_self _ _ _ (by simpa [length_setN] using hj)]

theorem nthD_swapN_other {α : Type} [Inhabited α] (l : List α) (i j k : Nat)
    (hki : k ≠ i) (hkj : k ≠ j) : nthD (swapN l i j) k = nthD l k := by
  unfold swapN
  rw [nthD_setN_ne _ _ _ _ hkj, nthD_setN_ne _ _ _ _ hki]

theorem exists_nthD_of_mem {α : Type} [Inhabited α] {l : List α} {a : α}
    (h : a ∈ l) : ∃ k, k < l.length ∧ nthD l k = a := by
  induction l with
  | nil => simp at h
  | cons x t ih =>
    rcases List.mem_cons.mp h with rfl | ht
    · exact ⟨0, by simp, rfl⟩
    · obtain ⟨k, hk, hnth⟩ := ih ht
      exact ⟨k + 1, by simpa using hk, hnth⟩

theorem nthD_mem {α : Type} [Inhabited α] {l : List α} {k : Nat}
    (h : k < l.length) : nthD l k ∈ l := by
  induction l generalizing k with
  | nil => simp at h
  | cons x t ih =>
    cases k with
    | zero => exact List.mem_cons_self x t
    | succ n => exact List.mem_cons_of_mem x (ih (by simpa using h))

theorem nthD_append_left {α : Type} [Inhabited α] (l m : List α) (i : Nat)
    (h : i < l.length) : nthD (l ++ m) i = nthD l i := by
  induction l generalizing i with
  | nil => simp at h
  | cons x t ih =>
    cases i with
    | zero => rfl
    | succ n => exact ih n (by simpa using h)

theorem nthD_dropLast {α : Type} [Inhabited α] (l : List α) (i : Nat)
    (h : i < l.length - 1) : nthD l.dropLast i = nthD l i := by
  induction l generalizing i with
  | nil => simp at h
  | cons x t ih =>
    cases t with
    | nil => simp at h
    | cons y t' =>
      cases i with
      | zero => rfl
      | succ n =>
        show nthD (y :: t').dropLast n = nthD (y :: t') n
        exact ih n (by simp at h ⊢; omega)

theorem getLastD_eq_nthD {α : Type} [Inhabited α] (l : List α) (hl : l ≠ []) :
    l.getLastD default = nthD l (l.length - 1) := by
  induction l with
  | nil => exact absurd rfl hl
  | cons x t ih =>
    cases t with
    | nil => rfl
    | cons y t' =>
      show (y :: t').getLastD default = nthD (x :: y :: t') ((y :: t').length + 1 - 1)
      rw [ih (by simp)]
      simp [nthD]

theorem mem_setN {α : Type} [Inhabited α] {l : List α} {i : Nat} {y a : α}
    (h : a ∈ setN l i y) : a = y ∨ a ∈ l := by
  obtain ⟨k, hk, hnth⟩ := exists_nthD_of_mem h
  rw [length_setN] at hk
  by_cases hki : k = i
  · subst hki
    rw [nthD_setN_self _ _ _ hk] at hnth
    exact Or.inl hnth.symm
  · rw [nthD_setN_ne _ _ _ _ hki] at hnth
    exact Or.inr (hnth ▸ nthD_mem hk)

theorem mem_swapN {α : Type} [Inhabited α] {l : List α} {i j : Nat} {a : α}
    (hi : i < l.length) (hj : j < l.length) (h : a ∈ swapN l i j) : a ∈ l := by
  obtain ⟨k, hk, hnth⟩ := exists_nthD_of_mem h
  rw [length_swapN] at hk
  by_cases hki : k = i
  · subst hki; rw [nthD_swapN_fst _ _ _ hi hj] at hnth; exact hnth ▸ nthD_mem hj
  · by_cases hkj : k = j
    · subst hkj; rw [nthD_swapN_snd _ _ _ hj] at hnth; exact hnth ▸ nthD_mem hi
    · rw [nthD_swapN_other _ _ _ _ hki hkj] at hnth; exact hnth ▸ nthD_mem hk

/-! ## Index arithmetic of the implicit binary tree -/

theorem getParentIndex_lt (i : Nat) (h : 0 < i) : MinHeap.getParentIndex i < i := by
  unfold MinHeap.getParentIndex; omega

theorem getParentIndex_left (i : Nat) : MinHeap.getParentIndex (2 * i + 1) = i := by
  unfold MinHeap.getParentIndex; omega

theorem getParentIndex_right (i : Nat) : MinHeap.getParentIndex (2 * i + 2) = i := by
  unfold MinHeap.getParentIndex; omega

theorem child_of_getParentIndex {c i : Nat} (hc : 0 < c)
    (h : MinHeap.getParentIndex c = i) : c = 2 * i + 1 ∨ c = 2 * i + 2 := by
  unfold MinHeap.getParentIndex at h; omega

theorem getParentIndex_child_lower {c i : Nat} (hc : 0 < c)
    (h : MinHeap.getParentIndex c = i) : 2 * i + 1 ≤ c := by
  unfold MinHeap.getParentIndex at h; omega

/-! ## Length and membership preservation of the sift loops -/

theorem length_heapifyUpFuel (fuel : Nat) :
    ∀ (l : List MinHeap.Entry) (i : Nat), (MinHeap.heapifyUpFuel l i fuel).length = l.length := by
  induction fuel with
  | zero => intro l i; rfl
  | succ n ih =>
    intro l i
    unfold MinHeap.heapifyUpFuel
    split
    · rw [ih, length_swapN]
    · rfl

theorem length_heapifyDownFuel (fuel : Nat) :
    ∀ (l : List MinHeap.Entry) (i : Nat), (MinHeap.heapifyDownFuel l i fuel).length = l.length := by
  induction fuel with
  | zero => intro l i; rfl
  | succ n ih =>
    intro l i
    unfold MinHeap.heapifyDownFuel
    split
    · split
      · rfl
      · rw [ih, length_swapN]
    · rfl

theorem length_heapifyDown (l : List MinHeap.Entry) :
    (MinHeap.heapifyDown l).length = l.length :=
  length_heapifyDownFuel _ _ _

theorem length_extractMin_snd (l : List MinHeap.Entry) :
    (MinHeap.extractMin l).2.length = l.length - 1 := by
  cases l with
  | nil => rfl
  | cons x xs =>
    show (if 0 < ((x :: xs).dropLast).length then _ else (_, (x :: xs).dropLast)).2.length = _
    split
    · simp [length_heapifyDown, length_setN]
    · simp

theorem smallerChildIndex_bounds (l : List MinHeap.Entry) (i : Nat)
    (h : 2 * i + 1 < l.length) :
    i < MinHeap.smallerChildIndex l i ∧ MinHeap.smallerChildIndex l i < l.length := by
  unfold MinHeap.smallerChildIndex
  split <;> omega

theorem mem_heapifyDownFuel (fuel : Nat) :
    ∀ (l : List MinHeap.Entry) (i : Nat) (a : MinHeap.Entry),
      a ∈ MinHeap.heapifyDownFuel l i fuel → a ∈ l := by
  induction fuel with
  | zero => intro l i a h; exact h
  | succ n ih =>
    intro l i a h
    unfold MinHeap.heapifyDownFuel at h
    split at h
    · rename_i hL
      split at h
      · exact h
      · have hb := smallerChildIndex_bounds l i hL
        exact mem_swapN (by omega) hb.2 (ih _ _ _ h)
    · exact h

theorem mem_heapifyUpFuel (fuel : Nat) :
    ∀ (l : List MinHeap.Entry) (i : Nat) (a : MinHeap.Entry), i < l.length →
      a ∈ MinHeap.heapifyUpFuel l i fuel → a ∈ l := by
  induction fuel with
  | zero => intro l i a _ h; exact h
  | succ n ih =>
    intro l i a hi h
    unfold MinHeap.heapifyUpFuel at h
    split at h
    · rename_i hc
      have hp := getParentIndex_lt i hc.1
      have := ih _ _ _ (by rw [length_swapN]; omega) h
      exact mem_swapN (by omega) hi this
    · exact h

theorem mem_heapifyDown {l : List MinHeap.Entry} {a : MinHeap.Entry}
    (h : a ∈ MinHeap.heapifyDown l) : a ∈ l :=
  mem_heapifyDownFuel _ _ _ _ h

theorem mem_heapifyUp {l : List MinHeap.Entry} {a : MinHeap.Entry}
    (h : a ∈ MinHeap.heapifyUp l) : a ∈ l := by
  cases l with
  | nil => exact h
  | cons x xs => exact mem_heapifyUpFuel _ _ _ _ (by simp) h

theorem mem_extractMin_snd {l : List MinHeap.Entry} {a : MinHeap.Entry}
    (h : a ∈ (MinHeap.extractMin l).2) : a ∈ l := by
  cases l with
  | nil => simp [MinHeap.extractMin] at h
  | cons x xs =>
    have hdl : ∀ b : MinHeap.Entry, b ∈ (x :: xs).dropLast → b ∈ x :: xs :=
      fun b hb => (List.dropLast_sublist (x :: xs)).subset hb
    simp only [MinHeap.extractMin] at h
    by_cases hp : 0 < ((x :: xs).dropLast).length
    · rw [if_pos hp] at h
      rcases mem_setN (mem_heapifyDown h) with rfl | hm
      · rw [getLastD_eq_nthD _ (by simp)]
        exact nthD_mem (Nat.sub_lt (by simp) Nat.one_pos)
      · exact hdl _ hm
    · rw [if_neg hp] at h
      exact hdl _ h

/-! ## Restoration of the heap invariant by the sift loops -/

theorem smallerChildIndex_parent (l : List MinHeap.Entry) (i : Nat) :
    MinHeap.getParentIndex (MinHeap.smallerChildIndex l i) = i := by
  unfold MinHeap.smallerChildIndex
  split
  · exact getParentIndex_right i
  · exact getParentIndex_left i

theorem smallerChild_min (l : List MinHeap.Entry) (i : Nat)
    (_hL : 2 * i + 1 < l.length) :
    ∀ c < l.length, (c = 2 * i + 1 ∨ c = 2 * i + 2) →
      (nthD l (MinHeap.smallerChildIndex l i)).expiresAt ≤ (nthD l c).expiresAt := by
  intro c hc hcc
  unfold MinHeap.smallerChildIndex
  split
  · rename_i h
    rcases hcc with rfl | rfl
    · exact le_of_lt h.2
    · exact le_refl _
  · rename_i h
    push_neg at h
    rcases hcc with rfl | rfl
    · exact le_refl _
    · exact h hc

theorem heapifyUpFuel_heapProp (fuel : Nat) :
    ∀ (l : List MinHeap.Entry) (i : Nat), i ≤ fuel → i < l.length →
    (∀ j, j < l.length → 0 < j → j ≠ i →
      (nthD l (MinHeap.getParentIndex j)).expiresAt ≤ (nthD l j).expiresAt) →
    (∀ c, c < l.length → 0 < i → MinHeap.getParentIndex c = i →
      (nthD l (MinHeap.getParentIndex i)).expiresAt ≤ (nthD l c).expiresAt) →
    MinHeap.heapProp (MinHeap.heapifyUpFuel l i fuel) := by
  induction fuel with
  | zero =>
    intro l i hif hil h1 h2 j hj hj0
    exact h1 j hj hj0 (by omega)
  | succ n ih =>
    intro l i hif hil h1 h2
    unfold MinHeap.heapifyUpFuel
    split
    · rename_i hc
      obtain ⟨hi0, hlt⟩ := hc
      have hpi : MinHeap.getParentIndex i < i := getParentIndex_lt i hi0
      apply ih (swapN l (MinHeap.getParentIndex i) i) (MinHeap.getParentIndex i)
        (by omega) (by rw [length_swapN]; omega)
      · -- pairwise order everywhere except at the new index
        intro j hj hj0 hjp
        rw [length_swapN] at hj
        by_cases hji : j = i
        · subst hji
          rw [show MinHeap.getParentIndex j = MinHeap.getParentIndex j from rfl,
            nthD_swapN_fst l _ j (by omega) hil, nthD_swapN_snd l _ j hil]
          exact le_of_lt hlt
        · by_cases hgpi : MinHeap.getParentIndex j = i
          · rw [hgpi, nthD_swapN_snd l _ i hil,
              nthD_swapN_other l _ i j hjp hji]
            exact h2 j hj hi0 hgpi
          · by_cases hgpp : MinHeap.getParentIndex j = MinHeap.getParentIndex i
            · rw [hgpp, nthD_swapN_fst l _ i (by omega) hil,
                nthD_swapN_other l _ i j hjp hji]
              calc (nthD l i).expiresAt
                  ≤ (nthD l (MinHeap.getParentIndex i)).expiresAt := le_of_lt hlt
                _ = (nthD l (MinHeap.getParentIndex j)).expiresAt := by rw [hgpp]
                _ ≤ (nthD l j).expiresAt := h1 j hj hj0 hji
            · rw [nthD_swapN_other l _ i _ hgpp hgpi,
                nthD_swapN_other l _ i j hjp hji]
              exact h1 j hj hj0 hji
      · -- order between the grandparent and the children of the new index
        intro c hc hp0 hcp
        rw [length_swapN] at hc
        have h0c : 0 < c := by
          by_contra h0c
          have : c = 0 := by omega
          subst this
          have : MinHeap.getParentIndex 0 = 0 := rfl
          omega
        have hcgt : 2 * MinHeap.getParentIndex i + 1 ≤ c :=
          getParentIndex_child_lower h0c hcp
        have hpp : MinHeap.getParentIndex (MinHeap.getParentIndex i) <
            MinHeap.getParentIndex i := getParentIndex_lt _ hp0
        rw [nthD_swapN_other l _ i _ (by omega) (by omega)]
        by_cases hci : c = i
        · subst hci
          rw [nthD_swapN_snd l _ c hil]
          exact h1 _ (by omega) hp0 (by omega)
        · rw [nthD_swapN_other l _ i c (by omega) hci]
          calc (nthD l (MinHeap.getParentIndex (MinHeap.getParentIndex i))).expiresAt
              ≤ (nthD l (MinHeap.getParentIndex i)).expiresAt :=
                h1 _ (by omega) hp0 (by omega)
            _ = (nthD l (MinHeap.getParentIndex c)).expiresAt := by rw [hcp]
            _ ≤ (nthD l c).expiresAt := h1 c hc h0c hci
    · rename_i hc
      push_neg at hc
      intro j hj hj0
      by_cases hji : j = i
      · subst hji
        exact hc hj0
      · exact h1 j hj hj0 hji

theorem heapifyDownFuel_heapProp (fuel : Nat) :
    ∀ (l : List MinHeap.Entry) (i : Nat), l.length - i ≤ fuel →
    (∀ j, j < l.length → 0 < j → MinHeap.getParentIndex j ≠ i →
      (nthD l (MinHeap.getParentIndex j)).expiresAt ≤ (nthD l j).expiresAt) →
    (∀ c, c < l.length → 0 < i → MinHeap.getParentIndex c = i →
      (nthD l (MinHeap.getParentIndex i)).expiresAt ≤ (nthD l c).expiresAt) →
    MinHeap.heapProp (MinHeap.heapifyDownFuel l i fuel) := by
  induction fuel with
  | zero =>
    intro l i hfuel h1 h2
    show MinHeap.heapProp l
    intro j hj hj0
    apply h1 j hj hj0
    intro hgp
    have := getParentIndex_child_lower hj0 hgp
    omega
  | succ n ih =>
    intro l i hfuel h1 h2
    unfold MinHeap.heapifyDownFuel
    split
    · rename_i hL
      split
      · rename_i hstop
        intro j hj hj0
        by_cases hgp : MinHeap.getParentIndex j = i
        · have hch := child_of_getParentIndex hj0 hgp
          rw [hgp]
          exact le_trans hstop (smallerChild_min l i hL j hj hch)
        · exact h1 j hj hj0 hgp
      · rename_i hstop
        push_neg at hstop
        have hb := smallerChildIndex_bounds l i hL
        have hiL : i < l.length := by omega
        have hgpj : MinHeap.getParentIndex (MinHeap.smallerChildIndex l i) = i :=
          smallerChildIndex_parent l i
        apply ih (swapN l i (MinHeap.smallerChildIndex l i)) (MinHeap.smallerChildIndex l i)
          (by rw [length_swapN]; omega)
        · intro k hk hk0 hkj
          rw [length_swapN] at hk
          by_cases hkc : k = MinHeap.smallerChildIndex l i
          · subst hkc
            rw [hgpj, nthD_swapN_fst l i _ hiL hb.2, nthD_swapN_snd l i _ hb.2]
            exact le_of_lt hstop
          · by_cases hki : k = i
            · subst hki
              have hk0' := hk0
              have hgpk : MinHeap.getParentIndex k < k := getParentIndex_lt k hk0
              rw [nthD_swapN_other l k _ _ (by omega) (by omega),
                nthD_swapN_fst l k _ hiL hb.2]
              exact h2 _ hb.2 hk0 hgpj
            · by_cases hgpi : MinHeap.getParentIndex k = i
              · have hch := child_of_getParentIndex hk0 hgpi
                rw [hgpi, nthD_swapN_fst l i _ hiL hb.2,
                  nthD_swapN_other l i _ k hki hkc]
                exact smallerChild_min l i hL k hk hch
              · rw [nthD_swapN_other l i _ _ hgpi hkj,
                  nthD_swapN_other l i _ k hki hkc]
                exact h1 k hk hk0 hgpi
        · intro c hc hj0 hcp
          rw [length_swapN] at hc
          have h0c : 0 < c := by
            by_contra h0c
            have : c = 0 := by omega
            subst this
            have : MinHeap.getParentIndex 0 = 0 := rfl
            omega
          have hclow : 2 * MinHeap.smallerChildIndex l i + 1 ≤ c :=
            getParentIndex_child_lower h0c hcp
          rw [hgpj, nthD_swapN_fst l i _ hiL hb.2,
            nthD_swapN_other l i _ c (by omega) (by omega)]
          have hne : MinHeap.getParentIndex c ≠ i := by rw [hcp]; omega
          have := h1 c hc h0c hne
          rwa [hcp] at this
    · rename_i hL
      intro j hj hj0
      apply h1 j hj hj0
      intro hgp
      have := getParentIndex_child_lower hj0 hgp
      omega

theorem insert_heapProp (l : List MinHeap.Entry) (sc : String) (t : Int)
    (hp : MinHeap.heapProp l) : MinHeap.heapProp (MinHeap.insert l sc t) := by
  unfold MinHeap.insert MinHeap.heapifyUp
  have hlen : (l ++ [(⟨sc, t⟩ : MinHeap.Entry)]).length = l.length + 1 := by simp
  rw [hlen]
  simp only [Nat.add_sub_cancel]
  apply heapifyUpFuel_heapProp l.length _ l.length (le_refl _) (by omega)
  · intro j hj hj0 hji
    rw [hlen] at hj
    have hjl : j < l.length := by omega
    have hgpl : MinHeap.getParentIndex j < l.length :=
      lt_trans (getParentIndex_lt j hj0) hjl
    rw [nthD_append_left l _ j hjl, nthD_append_left l _ _ hgpl]
    exact hp j hjl hj0
  · intro c hc h0 hcp
    rw [hlen] at hc
    have h0c : 0 < c := by
      by_contra h0c
      have : c = 0 := by omega
      subst this
      have : MinHeap.getParentIndex 0 = 0 := rfl
      omega
    have := getParentIndex_child_lower h0c hcp
    omega

theorem extractMin_heapProp (l : List MinHeap.Entry) (hp : MinHeap.heapProp l) :
    MinHeap.heapProp (MinHeap.extractMin l).2 := by
  cases l with
  | nil => intro j hj _; simp [MinHeap.extractMin] at hj
  | cons x xs =>
    by_cases hq : 0 < ((x :: xs).dropLast).length
    · have heq : (MinHeap.extractMin (x :: xs)).2 =
          MinHeap.heapifyDown (setN ((x :: xs).dropLast) 0 ((x :: xs).getLastD default)) := by
        simp only [MinHeap.extractMin]
        rw [if_pos hq]
      rw [heq]
      unfold MinHeap.heapifyDown
      apply heapifyDownFuel_heapProp _ _ 0 (le_refl _)
      · intro j hj hj0 hgp
        rw [length_setN] at hj
        have hdll : ((x :: xs).dropLast).length = (x :: xs).length - 1 :=
          List.length_dropLast _
        have hgpj : MinHeap.getParentIndex j < j := getParentIndex_lt j hj0
        rw [nthD_setN_ne ((x :: xs).dropLast) 0 j ((x :: xs).getLastD default)
            (by omega),
          nthD_setN_ne ((x :: xs).dropLast) 0 (MinHeap.getParentIndex j)
            ((x :: xs).getLastD default) hgp,
          nthD_dropLast _ j (by omega),
          nthD_dropLast _ (MinHeap.getParentIndex j) (by omega)]
        exact hp j (by omega) hj0
      · intro c hc h0 _
        omega
    · have heq : (MinHeap.extractMin (x :: xs)).2 = (x :: xs).dropLast := by
        simp only [MinHeap.extractMin]
        rw [if_neg hq]
      rw [heq]
      intro j hj hj0
      omega

theorem heapProp_root_min (l : List MinHeap.Entry) (hp : MinHeap.heapProp l) :
    ∀ i < l.length, (nthD l 0).expiresAt ≤ (nthD l i).expiresAt := by
  intro i
  induction i using Nat.strong_induction_on with
  | _ i ih =>
    intro hi
    rcases Nat.eq_zero_or_pos i with rfl | hpos
    · exact le_refl _
    · exact le_trans
        (ih (MinHeap.getParentIndex i) (getParentIndex_lt i hpos)
          (lt_trans (getParentIndex_lt i hpos) hi))
        (hp i hi hpos)

theorem heapProp_iff_childrenLe (l : List MinHeap.Entry) :
    MinHeap.heapProp l ↔ MinHeap.childrenLeProp l := by
  constructor
  · intro hp i hi c hc hcc
    have h0 : 0 < c := by rcases hcc with rfl | rfl <;> omega
    have hgp : MinHeap.getParentIndex c = i := by
      rcases hcc with rfl | rfl
      · exact getParentIndex_left i
      · exact getParentIndex_right i
    have := hp c hc h0
    rwa [hgp] at this
  · intro hc j hj hj0
    exact hc (MinHeap.getParentIndex j) (lt_trans (getParentIndex_lt j hj0) hj)
      j hj (child_of_getParentIndex hj0 rfl)

/-! ## findIndexP and countP support -/

theorem findIndexP_eq_none {α : Type} (p : α → Bool) (l : List α) :
    findIndexP p l = none ↔ ∀ a ∈ l, p a = false := by
  induction l with
  | nil => simp [findIndexP]
  | cons x t ih =>
    by_cases hx : p x = true
    · simp [findIndexP, hx]
    · have hx' : p x = false := by simpa using hx
      simp [findIndexP, hx', ih]

theorem findIndexP_some {α : Type} [Inhabited α] (p : α → Bool) (l : List α)
    (i : Nat) (h : findIndexP p l = some i) :
    i < l.length ∧ p (nthD l i) = true := by
  induction l generalizing i with
  | nil => simp [findIndexP] at h
  | cons x t ih =>
    by_cases hx : p x = true
    · simp [findIndexP, hx] at h
      subst h
      exact ⟨by simp, hx⟩
    · have hx' : p x = false := by simpa using hx
      simp [findIndexP, hx'] at h
      obtain ⟨m, hm, rfl⟩ := h
      obtain ⟨hml, hpm⟩ := ih m hm
      exact ⟨by simpa using hml, hpm⟩

theorem countP_le_one_unique {α : Type} [Inhabited α] (p : α → Bool) (l : List α)
    (h : l.countP p ≤ 1) : ∀ i j, i < l.length → j < l.length →
      p (nthD l i) = true → p (nthD l j) = true → i = j := by
  induction l with
  | nil => intro i j hi; simp at hi
  | cons x t ih =>
    intro i j hi hj hpi hpj
    rw [List.countP_cons] at h
    by_cases hx : p x = true
    · have ht : t.countP p = 0 := by rw [if_pos hx] at h; omega
      have hnone : ∀ a ∈ t, ¬ p a := List.countP_eq_zero.mp ht
      cases i with
      | zero =>
        cases j with
        | zero => rfl
        | succ m =>
          exact absurd hpj (hnone _ (nthD_mem (by simpa using hj)))
      | succ m =>
        exact absurd hpi (hnone _ (nthD_mem (by simpa using hi)))
    · have ht : t.countP p ≤ 1 := by simp [hx] at h; omega
      cases i with
      | zero => exact absurd hpi hx
      | succ m =>
        cases j with
        | zero => exact absurd hpj hx
        | succ m' =>
          have := ih ht m m' (by simpa using hi) (by simpa using hj) hpi hpj
          omega

/-! ## MinHeap.remove facts -/

theorem remove_no_key (l : List MinHeap.Entry) (k : String)
    (h : l.countP (fun e => e.shortCode == k) ≤ 1) :
    ∀ a ∈ (MinHeap.remove l k).2, (a.shortCode == k) = false := by
  cases hfi : findIndexP (fun e => e.shortCode == k) l with
  | none =>
    intro a ha
    have heq : (MinHeap.remove l k).2 = l := by simp [MinHeap.remove, hfi]
    rw [heq] at ha
    exact (findIndexP_eq_none _ l).mp hfi a ha
  | some index =>
    intro a ha
    obtain ⟨hidx, hpidx⟩ := findIndexP_some _ l index hfi
    by_contra hak
    have hak' : (a.shortCode == k) = true := by simpa using hak
    have hpl : l.dropLast.length = l.length - 1 := List.length_dropLast l
    have hlne : l ≠ [] := by intro h0; subst h0; simp at hidx
    by_cases hin : index < l.dropLast.length
    · have heq : (MinHeap.remove l k).2 =
          MinHeap.heapifyUp
            (MinHeap.heapifyDown (setN l.dropLast index (l.getLastD default))) := by
        simp only [MinHeap.remove, hfi]
        rw [if_pos hin]
      rw [heq] at ha
      have ha2 : a ∈ setN l.dropLast index (l.getLastD default) :=
        mem_heapifyDown (mem_heapifyUp ha)
      obtain ⟨j, hjl, hja⟩ := exists_nthD_of_mem ha2
      rw [length_setN] at hjl
      by_cases hji : j = index
      · subst hji
        rw [nthD_setN_self _ _ _ hjl] at hja
        have hlast : l.getLastD default = nthD l (l.length - 1) := getLastD_eq_nthD l hlne
        have hplast : ((nthD l (l.length - 1)).shortCode == k) = true := by
          rw [← hlast, hja]; exact hak'
        have := countP_le_one_unique _ l h j (l.length - 1) (by omega)
          (by omega) hpidx hplast
        omega
      · rw [nthD_setN_ne _ _ _ _ hji, nthD_dropLast _ j (by omega)] at hja
        have hpj : ((nthD l j).shortCode == k) = true := by rw [hja]; exact hak'
        have := countP_le_one_unique _ l h index j (by omega) (by omega) hpidx hpj
        omega
    · have heq : (MinHeap.remove l k).2 = l.dropLast := by
        simp only [MinHeap.remove, hfi]
        rw [if_neg hin]
      rw [heq] at ha
      obtain ⟨j, hjl, hja⟩ := exists_nthD_of_mem ha
      rw [hpl] at hjl
      rw [nthD_dropLast _ j (by omega)] at hja
      have := countP_le_one_unique _ l h index j (by omega) (by omega) hpidx
        (by rw [hja]; exact hak')
      omega

theorem remove_absent (l : List MinHeap.Entry) (k : String)
    (h : ∀ a ∈ l, (a.shortCode == k) = false) :
    MinHeap.remove l k = (false, l) := by
  have hfi : findIndexP (fun e => e.shortCode == k) l = none :=
    (findIndexP_eq_none _ l).mpr h
  simp [MinHeap.remove, hfi]

/-! ## Association-list facts -/

theorem assocHas_eq_false_of_countP_zero {β : Type} (m : List (String × β)) (k : String)
    (h : m.countP (fun p => p.1 == k) = 0) : assocHas m k = false := by
  induction m with
  | nil => rfl
  | cons p t ih =>
    rw [List.countP_cons] at h
    by_cases hp : (p.1 == k) = true
    · simp [hp] at h
    · have hpf : (p.1 == k) = false := by simpa using hp
      show (p.1 == k || assocHas t k) = false
      rw [hpf, Bool.false_or]
      exact ih (by simpa [hpf] using h)

theorem assocHas_assocDelete_self {β : Type} (m : List (String × β)) (k : String)
    (h : m.countP (fun p => p.1 == k) ≤ 1) :
    assocHas (assocDelete m k) k = false := by
  induction m with
  | nil => rfl
  | cons p t ih =>
    rw [List.countP_cons] at h
    by_cases hp : (p.1 == k) = true
    · show assocHas (if p.1 == k then t else p :: assocDelete t k) k = false
      rw [if_pos hp]
      exact assocHas_eq_false_of_countP_zero t k (by rw [if_pos hp] at h; omega)
    · have hpf : (p.1 == k) = false := by simpa using hp
      show assocHas (if p.1 == k then t else p :: assocDelete t k) k = false
      rw [if_neg hp]
      show (p.1 == k || assocHas (assocDelete t k) k) = false
      rw [hpf, Bool.false_or]
      exact ih (by simpa [hpf] using h)

theorem assocDelete_of_not_has {β : Type} (m : List (String × β)) (k : String)
    (h : assocHas m k = false) : assocDelete m k = m := by
  induction m with
  | nil => rfl
  | cons p t ih =>
    have h' : (p.1 == k) = false ∧ assocHas t k = false := by
      simpa [assocHas, Bool.or_eq_false_iff] using h
    show (if p.1 == k then t else p :: assocDelete t k) = p :: t
    rw [if_neg (by simp [h'.1]), ih h'.2]

/-! ## Claim C7: insert and extractMin preserve invariant I3 -/

/-- C7: starting from a heap state satisfying I3 (every entry's expiry
instant at most both its children's), both MinHeap.insert -- append then
sift upward while strictly below the parent -- and MinHeap.extractMin --
move the last element to the root, then sift downward toward the smaller
child -- produce a state that satisfies I3 again. -/
theorem c7_insert_extractMin_preserve_I3 (l : List MinHeap.Entry)
    (sc : String) (t : Int) (h : MinHeap.childrenLeProp l) :
    MinHeap.childrenLeProp (MinHeap.insert l sc t) ∧
    MinHeap.childrenLeProp (MinHeap.extractMin l).2 := by
  have hp := (heapProp_iff_childrenLe l).mpr h
  exact ⟨(heapProp_iff_childrenLe _).mp (insert_heapProp l sc t hp),
    (heapProp_iff_childrenLe _).mp (extractMin_heapProp l hp)⟩

/-- Witness for C7 at a concrete heap. -/
theorem c7_insert_extractMin_preserve_I3_witness :
    MinHeap.childrenLeProp [⟨"p", 5⟩, ⟨"q", 7⟩, ⟨"r", 6⟩] ∧
    (MinHeap.childrenLeProp (MinHeap.insert [⟨"p", 5⟩, ⟨"q", 7⟩, ⟨"r", 6⟩] "s" 4) ∧
      MinHeap.childrenLeProp (MinHeap.extractMin [⟨"p", 5⟩, ⟨"q", 7⟩, ⟨"r", 6⟩]).2) :=
  ⟨by decide,
    c7_insert_extractMin_preserve_I3 [⟨"p", 5⟩, ⟨"q", 7⟩, ⟨"r", 6⟩] "s" 4 (by decide)⟩

/-! ## Claim C6: extractMin returns the global minimum -/

/-- C6: extractMin of the empty heap returns null and leaves the heap
empty; on a nonempty heap satisfying the heap property it returns an
entry whose expiry instant is minimal among all entries and shrinks the
heap by one; and on the concrete +30s/+10s/+20s insertion scenario peek
returns the +10s entry, and after extractMin the next peek returns the
+20s entry. -/
theorem c6_extractMin_min :
    MinHeap.extractMin ([] : List MinHeap.Entry) = (none, []) ∧
    (∀ l : List MinHeap.Entry, MinHeap.childrenLeProp l → l ≠ [] →
      ∃ e, (MinHeap.extractMin l).1 = some e ∧ e ∈ l ∧
        (∀ x ∈ l, e.expiresAt ≤ x.expiresAt) ∧
        (MinHeap.extractMin l).2.length = l.length - 1) ∧
    MinHeap.peek
        (MinHeap.insert (MinHeap.insert (MinHeap.insert [] "a" 30) "b" 10) "c" 20) =
      some ⟨"b", 10⟩ ∧
    MinHeap.peek (MinHeap.extractMin
        (MinHeap.insert (MinHeap.insert (MinHeap.insert [] "a" 30) "b" 10) "c" 20)).2 =
      some ⟨"c", 20⟩ := by
  refine ⟨rfl, ?_, by decide, by decide⟩
  intro l hcl hne
  have hp := (heapProp_iff_childrenLe l).mpr hcl
  cases l with
  | nil => exact absurd rfl hne
  | cons x xs =>
    refine ⟨x, ?_, List.mem_cons_self x xs, ?_, length_extractMin_snd _⟩
    · simp only [MinHeap.extractMin]
      split <;> rfl
    · intro y hy
      obtain ⟨kk, hk, rfl⟩ := exists_nthD_of_mem hy
      exact heapProp_root_min _ hp kk hk

/-- Witness for C6 at a concrete heap. -/
theorem c6_extractMin_min_witness :
    MinHeap.childrenLeProp [⟨"p", 5⟩, ⟨"q", 7⟩] ∧
    (∃ e, (MinHeap.extractMin [⟨"p", 5⟩, ⟨"q", 7⟩]).1 = some e ∧
      e ∈ [⟨"p", 5⟩, ⟨"q", 7⟩] ∧
      (∀ x ∈ ([⟨"p", 5⟩, ⟨"q", 7⟩] : List MinHeap.Entry),
        e.expiresAt ≤ x.expiresAt) ∧
      (MinHeap.extractMin [⟨"p", 5⟩, ⟨"q", 7⟩]).2.length =
        ([⟨"p", 5⟩, ⟨"q", 7⟩] : List MinHeap.Entry).length - 1) :=
  ⟨by decide, c6_extractMin_min.2.1 [⟨"p", 5⟩, ⟨"q", 7⟩] (by decide) (by decide)⟩

/-! ## Claim C1: remove does not restore the heap property -/

/-- C1: evidence against the stated property.  The valid min-heap
[a:0, b:1, c:10, d:2, e:3, f:11, g:12] -- reachable by the seven inserts
shown -- yields, after remove("b"), the array
[a:0, g:12, c:10, d:2, e:3, f:11], which violates the heap property at
index 1 (g:12 sits above its child d:2): remove replaces the entry with
the last element but then sifts from the root and from the last index
(heapifyDown() and heapifyUp() take no start position), not from the
replaced position, so I3 is not restored.  The boolean return is true
here, as the claim states for a present key. -/
theorem c1_remove_breaks_heap :
    MinHeap.insert (MinHeap.insert (MinHeap.insert (MinHeap.insert (MinHeap.insert
        (MinHeap.insert (MinHeap.insert [] "a" 0) "b" 1) "c" 10) "d" 2) "e" 3)
        "f" 11) "g" 12 =
      [⟨"a", 0⟩, ⟨"b", 1⟩, ⟨"c", 10⟩, ⟨"d", 2⟩, ⟨"e", 3⟩, ⟨"f", 11⟩, ⟨"g", 12⟩] ∧
    MinHeap.childrenLeProp
      [⟨"a", 0⟩, ⟨"b", 1⟩, ⟨"c", 10⟩, ⟨"d", 2⟩, ⟨"e", 3⟩, ⟨"f", 11⟩, ⟨"g", 12⟩] ∧
    MinHeap.remove
        [⟨"a", 0⟩, ⟨"b", 1⟩, ⟨"c", 10⟩, ⟨"d", 2⟩, ⟨"e", 3⟩, ⟨"f", 11⟩, ⟨"g", 12⟩] "b" =
      (true, [⟨"a", 0⟩, ⟨"g", 12⟩, ⟨"c", 10⟩, ⟨"d", 2⟩, ⟨"e", 3⟩, ⟨"f", 11⟩]) ∧
    ¬ MinHeap.childrenLeProp
        [⟨"a", 0⟩, ⟨"g", 12⟩, ⟨"c", 10⟩, ⟨"d", 2⟩, ⟨"e", 3⟩, ⟨"f", 11⟩] := by
  decide

/-! ## Claim C9: idempotence of Remove -/

/-- C9 counterexample: on a heap holding two entries with the same key,
the second remove("a") still returns true and changes the state, so
Remove is not idempotent on every state. -/
theorem c9_remove_not_idempotent :
    MinHeap.remove [⟨"a", 1⟩, ⟨"a", 2⟩] "a" = (true, [⟨"a", 2⟩]) ∧
    MinHeap.remove (MinHeap.remove [⟨"a", 1⟩, ⟨"a", 2⟩] "a").2 "a" = (true, []) ∧
    (MinHeap.remove (MinHeap.remove [⟨"a", 1⟩, ⟨"a", 2⟩] "a").2 "a").2 ≠
      (MinHeap.remove [⟨"a", 1⟩, ⟨"a", 2⟩] "a").2 := by
  decide

/-- C9 amended: on states where the key occurs at most once in the heap
array and at most once in the cache (as in every state a JS Map and the
route layer's unique short codes produce), Remove is idempotent: the
second heap removal returns false and leaves the array unchanged, and
the second cache deletion is a no-op. -/
theorem c9_remove_idempotent_of_unique (l : List MinHeap.Entry)
    (m : List (String × String)) (k : String)
    (hl : l.countP (fun e => e.shortCode == k) ≤ 1)
    (hm : m.countP (fun p => p.1 == k) ≤ 1) :
    MinHeap.remove (MinHeap.remove l k).2 k = (false, (MinHeap.remove l k).2) ∧
    assocDelete (assocDelete m k) k = assocDelete m k :=
  ⟨remove_absent _ k (remove_no_key l k hl),
    assocDelete_of_not_has _ k (assocHas_assocDelete_self m k hm)⟩

/-- Witness for C9 at a concrete heap and cache. -/
theorem c9_remove_idempotent_of_unique_witness :
    ([⟨"a", 1⟩] : List MinHeap.Entry).countP (fun e => e.shortCode == "a") ≤ 1 ∧
    ([("a", "u")] : List (String × String)).countP (fun p => p.1 == "a") ≤ 1 ∧
    (MinHeap.remove (MinHeap.remove [⟨"a", 1⟩] "a").2 "a" =
        (false, (MinHeap.remove [⟨"a", 1⟩] "a").2) ∧
      assocDelete (assocDelete [("a", "u")] "a") "a" =
        assocDelete [("a", "u")] "a") :=
  ⟨by decide, by decide,
    c9_remove_idempotent_of_unique [⟨"a", 1⟩] [("a", "u")] "a" (by decide) (by decide)⟩

/-! ## Cache arithmetic -/

theorem assocHas_length_pos {β : Type} (m : List (String × β)) (k : String)
    (h : assocHas m k = true) : 0 < m.length := by
  cases m with
  | nil => simp [assocHas] at h
  | cons p t => simp

theorem length_assocDelete_of_has {β : Type} (m : List (String × β)) (k : String)
    (h : assocHas m k = true) : (assocDelete m k).length = m.length - 1 := by
  induction m with
  | nil => simp [assocHas] at h
  | cons p t ih =>
    by_cases hp : (p.1 == k) = true
    · show (if p.1 == k then t else p :: assocDelete t k).length = (p :: t).length - 1
      rw [if_pos hp]
      simp
    · have hp' : (p.1 == k) = false := by simpa using hp
      have ht : assocHas t k = true := by
        have : (p.1 == k || assocHas t k) = true := h
        simpa [hp'] using this
      have hpos := assocHas_length_pos t k ht
      show (if p.1 == k then t else p :: assocDelete t k).length = (p :: t).length - 1
      rw [if_neg hp]
      simp only [List.length_cons, ih ht]
      omega

theorem length_assocSet_le {β : Type} (m : List (String × β)) (k : String) (v : β) :
    (assocSet m k v).length ≤ m.length + 1 := by
  induction m with
  | nil => simp [assocSet]
  | cons p t ih =>
    show (if p.1 == k then (k, v) :: t else p :: assocSet t k v).length ≤ _
    split
    · simp
    · simp only [List.length_cons]
      omega

theorem assocSet_of_not_has {β : Type} (m : List (String × β)) (k : String) (v : β)
    (h : assocHas m k = false) : assocSet m k v = m ++ [(k, v)] := by
  induction m with
  | nil => rfl
  | cons p t ih =>
    have h' : (p.1 == k) = false ∧ assocHas t k = false := by
      simpa [assocHas, Bool.or_eq_false_iff] using h
    show (if p.1 == k then (k, v) :: t else p :: assocSet t k v) = p :: t ++ [(k, v)]
    rw [if_neg (by simp [h'.1]), ih h'.2]
    rfl

theorem assocHas_append {β : Type} (a b : List (String × β)) (k : String) :
    assocHas (a ++ b) k = (assocHas a k || assocHas b k) := by
  induction a with
  | nil => simp [assocHas]
  | cons p t ih =>
    show (p.1 == k || assocHas (t ++ b) k) = ((p.1 == k || assocHas t k) || _)
    rw [ih, Bool.or_assoc]

theorem assocHas_assocDelete_of_ne {β : Type} (m : List (String × β)) (k' j : String)
    (hne : j ≠ k') : assocHas (assocDelete m k') j = assocHas m j := by
  induction m with
  | nil => rfl
  | cons p t ih =>
    by_cases hp : (p.1 == k') = true
    · have hpk : p.1 = k' := by simpa using hp
      have : (p.1 == j) = false := by
        simp [hpk]
        exact fun h => hne h.symm
      show assocHas (if p.1 == k' then t else p :: assocDelete t k') j = _
      rw [if_pos hp]
      show assocHas t j = (p.1 == j || assocHas t j)
      rw [this, Bool.false_or]
    · show assocHas (if p.1 == k' then t else p :: assocDelete t k') j = _
      rw [if_neg hp]
      show (p.1 == j || assocHas (assocDelete t k') j) = (p.1 == j || assocHas t j)
      rw [ih]

theorem assocFind?_assocDelete_of_ne {β : Type} (m : List (String × β)) (k' j : String)
    (hne : j ≠ k') : assocFind? (assocDelete m k') j = assocFind? m j := by
  induction m with
  | nil => rfl
  | cons p t ih =>
    by_cases hp : (p.1 == k') = true
    · have hpk : p.1 = k' := by simpa using hp
      have hpj : (p.1 == j) = false := by
        simp [hpk]
        exact fun h => hne h.symm
      show assocFind? (if p.1 == k' then t else p :: assocDelete t k') j = _
      rw [if_pos hp]
      show assocFind? t j = if p.1 == j then some p.2 else assocFind? t j
      rw [if_neg (by simp [hpj])]
    · show assocFind? (if p.1 == k' then t else p :: assocDelete t k') j = _
      rw [if_neg hp]
      show (if p.1 == j then some p.2 else assocFind? (assocDelete t k') j) = _
      by_cases hpj : (p.1 == j) = true
      · show _ = if p.1 == j then some p.2 else assocFind? t j
        rw [if_pos hpj, if_pos hpj]
      · show _ = if p.1 == j then some p.2 else assocFind? t j
        rw [if_neg hpj, if_neg hpj, ih]

theorem keysNodup_countP_le_one {β : Type} (m : List (String × β)) (k : String)
    (h : keysNodup m) : m.countP (fun p => p.1 == k) ≤ 1 := by
  induction m with
  | nil => simp
  | cons p t ih =>
    have h' := h
    unfold keysNodup at h'
    rw [List.map_cons, List.nodup_cons] at h'
    rw [List.countP_cons]
    by_cases hp : (p.1 == k) = true
    · have hpk : p.1 = k := by simpa using hp
      have ht0 : t.countP (fun q => q.1 == k) = 0 := by
        apply List.countP_eq_zero.mpr
        intro q hq hqk
        have hqk' : q.1 = k := by simpa using hqk
        exact h'.1 (by
          rw [hpk, ← hqk']
          exact List.mem_map_of_mem Prod.fst hq)
      rw [if_pos hp, ht0]
    · rw [if_neg hp]
      have := ih h'.2
      omega

theorem assocHas_assocDelete_self_of_nodup {β : Type} (m : List (String × β))
    (k : String) (h : keysNodup m) : assocHas (assocDelete m k) k = false :=
  assocHas_assocDelete_self m k (keysNodup_countP_le_one m k h)

theorem evictIfFull_of_lt (cap : Nat) (c1 : List (String × String))
    (log : List OpRecord) (h : c1.length < cap) : evictIfFull cap c1 log = (c1, log) := by
  unfold evictIfFull
  rw [if_neg (by omega)]

theorem evictIfFull_of_full_cons (cap : Nat) (p : String × String)
    (rest : List (String × String)) (log : List OpRecord)
    (h : (p :: rest).length ≥ cap) :
    evictIfFull cap (p :: rest) log =
      (rest, logOperation (p :: rest).length log "EVICT" p.1 "O(1)" none) := by
  unfold evictIfFull
  rw [if_pos h]
  have hd : assocDelete (p :: rest) p.1 = rest := by simp [assocDelete]
  show (assocDelete (p :: rest) p.1,
    logOperation (p :: rest).length log "EVICT" p.1 "O(1)" none) = _
  rw [hd]

theorem addToCache_length_le (cap : Nat) (cache : List (String × String))
    (log : List OpRecord) (k v : String) (hcap : 1 ≤ cap)
    (h : cache.length ≤ cap) : (addToCache cap cache log k v).1.length ≤ cap := by
  simp only [addToCache]
  by_cases hhas : assocHas cache k = true
  · rw [if_pos hhas]
    have h1 : (assocDelete cache k).length = cache.length - 1 :=
      length_assocDelete_of_has cache k hhas
    have hpos := assocHas_length_pos cache k hhas
    rw [evictIfFull_of_lt _ _ _ (by omega)]
    dsimp only
    have := length_assocSet_le (assocDelete cache k) k v
    omega
  · rw [if_neg hhas]
    by_cases hfull : cache.length ≥ cap
    · cases cache with
      | nil => simp at hfull; omega
      | cons p rest =>
        rw [evictIfFull_of_full_cons cap p rest log hfull]
        dsimp only
        have := length_assocSet_le rest k v
        simp at h
        omega
    · rw [evictIfFull_of_lt _ _ _ (by omega)]
      dsimp only
      have := length_assocSet_le cache k v
      omega

theorem getFromCache_length_le (c : List (String × String)) (log : List OpRecord)
    (k : String) : (getFromCache c log k).2.1.length ≤ c.length := by
  unfold getFromCache
  by_cases hhas : assocHas c k = true
  · rw [if_pos hhas]
    dsimp only
    have h1 : (assocDelete c k).length = c.length - 1 :=
      length_assocDelete_of_has c k hhas
    have hpos := assocHas_length_pos c k hhas
    have := length_assocSet_le (assocDelete c k) k ((assocFind? c k).getD "")
    omega
  · rw [if_neg hhas]

/-! ## Claim C4: the cache never exceeds MAX_CACHE_SIZE -/

/-- C4: along every sequence of addToCache / getFromCache operations
started from the empty cache, the cache size stays at or below
MAX_CACHE_SIZE = 5 (invariant I1); since the sequence is arbitrary this
bounds the size at every intermediate point as well. -/
theorem c4_cache_size_bound (ops : List CacheOp) :
    (runCacheOps ops).1.length ≤ MAX_CACHE_SIZE := by
  have key : ∀ (os : List CacheOp) (st : List (String × String) × List OpRecord),
      st.1.length ≤ MAX_CACHE_SIZE →
      (os.foldl (applyCacheOpAt MAX_CACHE_SIZE) st).1.length ≤ MAX_CACHE_SIZE := by
    intro os
    induction os with
    | nil => intro st h; exact h
    | cons op t ih =>
      intro st h
      rw [List.foldl_cons]
      apply ih
      cases op with
      | put k v =>
        exact addToCache_length_le MAX_CACHE_SIZE st.1 st.2 k v (by decide) h
      | get k => exact le_trans (getFromCache_length_le st.1 st.2 k) h
  exact key ops ([], []) (by simp [MAX_CACHE_SIZE])

/-! ## Claim C5: LRU repositioning and eviction order -/

/-- C5: a getFromCache hit repositions the key at the most-recently-used
end of the map; an addToCache of a fresh key into a full cache evicts
exactly the first (least recently touched) key, logging EVICT with that
key; and the concrete capacity-3 scenario insert a,b,c; Get(a); Put(d)
evicts b and leaves the iteration order [c, a, d]. -/
theorem c5_lru_order :
    (∀ (c : List (String × String)) (log : List OpRecord) (k : String),
      keysNodup c → assocHas c k = true →
      (getFromCache c log k).2.1 =
        assocDelete c k ++ [(k, (assocFind? c k).getD "")]) ∧
    (∀ (cap : Nat) (p : String × String) (rest : List (String × String))
        (log : List OpRecord) (k v : String),
      assocHas (p :: rest) k = false → (p :: rest).length = cap →
      (addToCache cap (p :: rest) log k v).1 = rest ++ [(k, v)] ∧
      (addToCache cap (p :: rest) log k v).2 =
        logOperation (rest ++ [(k, v)]).length
          (logOperation (p :: rest).length log "EVICT" p.1 "O(1)" none)
          "SET" k "O(1)" none) ∧
    (runCacheOpsAt 3 [.put "a" "ua", .put "b" "ub", .put "c" "uc",
        .get "a", .put "d" "ud"]).1.map Prod.fst = ["c", "a", "d"] ∧
    ((runCacheOpsAt 3 [.put "a" "ua", .put "b" "ub", .put "c" "uc",
        .get "a", .put "d" "ud"]).2.filter (fun r => r.type == "EVICT")).map
      (fun r => r.key) = [some "b"] := by
  refine ⟨?_, ?_, by decide, by decide⟩
  · intro c log k hnd hhas
    unfold getFromCache
    rw [if_pos hhas]
    dsimp only
    exact assocSet_of_not_has _ _ _ (assocHas_assocDelete_self_of_nodup c k hnd)
  · intro cap p rest log k v hhas hlen
    have hrest : assocHas rest k = false := by
      have h' : (p.1 == k || assocHas rest k) = false := hhas
      exact (Bool.or_eq_false_iff.mp h').2
    simp only [addToCache]
    rw [if_neg (by simp [hhas])]
    rw [evictIfFull_of_full_cons cap p rest log (by omega)]
    dsimp only
    rw [assocSet_of_not_has rest k v hrest]
    exact ⟨rfl, rfl⟩

/-- Witness for C5 at a concrete cache. -/
theorem c5_lru_order_witness :
    keysNodup [("a", "1"), ("b", "2")] ∧
    assocHas [("a", "1"), ("b", "2")] "a" = true ∧
    (getFromCache [("a", "1"), ("b", "2")] [] "a").2.1 =
      assocDelete [("a", "1"), ("b", "2")] "a" ++
        [("a", (assocFind? [("a", "1"), ("b", "2")] "a").getD "")] :=
  ⟨by decide, by decide,
    c5_lru_order.1 [("a", "1"), ("b", "2")] [] "a" (by decide) (by decide)⟩

/-! ## Claim C10: re-Put of a present key never evicts -/

/-- C10: adding a key that is already present to a cache within its
capacity bound (invariant I1; keys are distinct as in every JS Map)
deletes the old binding before the capacity check, so the eviction
branch cannot fire: no other key is removed, no EVICT record is logged
-- the log grows by exactly one SET record -- and the size is
unchanged. -/
theorem c10_reput_no_evict (c : List (String × String)) (log : List OpRecord)
    (k v : String) (hnd : keysNodup c) (hhas : assocHas c k = true)
    (hsz : c.length ≤ MAX_CACHE_SIZE) :
    (addToCache MAX_CACHE_SIZE c log k v).1.length = c.length ∧
    (∀ j, assocHas c j = true →
      assocHas (addToCache MAX_CACHE_SIZE c log k v).1 j = true) ∧
    (addToCache MAX_CACHE_SIZE c log k v).2 =
      logOperation c.length log "SET" k "O(1)" none := by
  have hlen1 : (assocDelete c k).length = c.length - 1 :=
    length_assocDelete_of_has c k hhas
  have hpos := assocHas_length_pos c k hhas
  have hnotin : assocHas (assocDelete c k) k = false :=
    assocHas_assocDelete_self_of_nodup c k hnd
  have hsetlen : (assocDelete c k ++ [(k, v)]).length = c.length := by
    simp [hlen1]
    omega
  simp only [addToCache]
  rw [if_pos hhas, evictIfFull_of_lt _ _ _ (by
    rw [hlen1]
    unfold MAX_CACHE_SIZE at hsz ⊢
    omega)]
  dsimp only
  rw [assocSet_of_not_has _ _ _ hnotin]
  refine ⟨hsetlen, ?_, by rw [hsetlen]⟩
  intro j hj
  rw [assocHas_append]
  by_cases hjk : j = k
  · subst hjk
    have : assocHas [(j, v)] j = true := by simp [assocHas]
    rw [this, Bool.or_true]
  · rw [assocHas_assocDelete_of_ne c k j hjk, hj, Bool.true_or]

/-- Witness for C10 at a concrete cache. -/
theorem c10_reput_no_evict_witness :
    keysNodup [("a", "u"), ("b", "w")] ∧
    assocHas [("a", "u"), ("b", "w")] "a" = true ∧
    ([("a", "u"), ("b", "w")] : List (String × String)).length ≤ MAX_CACHE_SIZE ∧
    (addToCache MAX_CACHE_SIZE [("a", "u"), ("b", "w")] [] "a" "v").1.length =
      ([("a", "u"), ("b", "w")] : List (String × String)).length :=
  ⟨by decide, by decide, by decide,
    (c10_reput_no_evict [("a", "u"), ("b", "w")] [] "a" "v"
      (by decide) (by decide) (by decide)).1⟩

/-! ## Lookup route reductions -/

theorem getFromCache_of_has (c : List (String × String)) (log : List OpRecord)
    (k : String) (h : assocHas c k = true) :
    getFromCache c log k =
      (some ((assocFind? c k).getD ""),
        assocSet (assocDelete c k) k ((assocFind? c k).getD ""),
        logOperation (assocSet (assocDelete c k) k ((assocFind? c k).getD "")).length
          log "HIT" k "O(1)" none) := by
  unfold getFromCache
  rw [if_pos h]

theorem getFromCache_of_not_has (c : List (String × String)) (log : List OpRecord)
    (k : String) (h : assocHas c k = false) :
    getFromCache c log k = (none, c, log) := by
  unfold getFromCache
  rw [if_neg (by simp [h])]

theorem lookupMiss_outcome (s : ServerState) (now : Int) (k : String)
    (c1 : List (String × String)) (log1 : List OpRecord)
    (hexp : storeTimeExpiredOrGone s.store k now = true) :
    (lookupMiss s now k c1 log1).1 = LookupOutcome.expired ∨
    (lookupMiss s now k c1 log1).1 = LookupOutcome.notFound := by
  unfold lookupMiss
  unfold storeTimeExpiredOrGone at hexp
  cases hf : assocFind? s.store k with
  | none =>
    simp only [hf]
    exact Or.inr trivial
  | some d =>
    simp only [hf] at hexp ⊢
    have hie : isExpired now d = true := by
      simp only [Bool.and_eq_true] at hexp
      exact hexp.2
    rw [if_pos hie]
    exact Or.inl rfl

/-! ## Claim C3: reconciliation safety of Lookup -/

/-- C3: once a key's record has a time-based expiry whose instant has
passed -- whether the record is still in the store or already deleted --
every lookup of that key answers Expired (410) or NotFound (404), never
a redirect, under the structural fact that every cached key still has a
store record (which holds in all states this server reaches, since every
store deletion removes the key from the cache in the same handler). -/
theorem c3_reconciliation_safety (s : ServerState) (now : Int) (k : String)
    (hcs : assocHas s.cache k = true → (assocFind? s.store k).isSome = true)
    (hexp : storeTimeExpiredOrGone s.store k now = true) :
    (lookupRoute s now k).1 = LookupOutcome.expired ∨
    (lookupRoute s now k).1 = LookupOutcome.notFound := by
  unfold lookupRoute
  by_cases hguard : k = "heap-state" ∨ k = "favicon.ico"
  · rw [if_pos hguard]
    exact Or.inr rfl
  · rw [if_neg hguard]
    by_cases hhas : assocHas s.cache k = true
    · rw [getFromCache_of_has s.cache s.opLog k hhas]
      dsimp only
      by_cases hu : (assocFind? s.cache k).getD "" ≠ ""
      · rw [if_pos hu]
        obtain ⟨d, hd⟩ := Option.isSome_iff_exists.mp (hcs hhas)
        unfold storeTimeExpiredOrGone at hexp
        simp only [hd] at hexp ⊢
        have hie : isExpired now d = true := by
          simp only [Bool.and_eq_true] at hexp
          exact hexp.2
        rw [if_pos hie]
        exact Or.inl rfl
      · rw [if_neg hu]
        exact lookupMiss_outcome s now k _ _ hexp
    · have hhas' : assocHas s.cache k = false := by
        cases h : assocHas s.cache k
        · rfl
        · exact absurd h hhas
      rw [getFromCache_of_not_has s.cache s.opLog k hhas']
      dsimp only
      exact lookupMiss_outcome s now k _ _ hexp

/-- Witness for C3 at a concrete state whose store record is
time-expired. -/
theorem c3_reconciliation_safety_witness :
    (lookupRoute
        { cache := [("k", "u")]
          store := [("k",
            { url := "u", clicks := 0, expiryType := some ExpiryKind.time,
              expiresAt := some 10, maxClicks := none })]
          heap := [⟨"k", 10⟩]
          opLog := []
          heapLog := [] } 20 "k").1 = LookupOutcome.expired ∨
    (lookupRoute
        { cache := [("k", "u")]
          store := [("k",
            { url := "u", clicks := 0, expiryType := some ExpiryKind.time,
              expiresAt := some 10, maxClicks := none })]
          heap := [⟨"k", 10⟩]
          opLog := []
          heapLog := [] } 20 "k").1 = LookupOutcome.notFound :=
  c3_reconciliation_safety _ 20 "k" (by decide) (by decide)

/-! ## Claim C2: expired cache hit does not touch the heap -/

/-- C2 counterexample: a lookup that hits the cache and finds the record
time-expired returns Expired, but the key is still present in the
heapItems snapshot (getAll of the heap) afterwards -- the route never
calls MinHeap.remove, contradicting the claimed scheduler removal. -/
theorem c2_heap_not_reconciled :
    (lookupRoute
        { cache := [("k", "u")]
          store := [("k",
            { url := "u", clicks := 0, expiryType := some ExpiryKind.time,
              expiresAt := some 10, maxClicks := none })]
          heap := [⟨"k", 10⟩]
          opLog := []
          heapLog := [] } 20 "k").1 = LookupOutcome.expired ∧
    ((MinHeap.getAll (lookupRoute
        { cache := [("k", "u")]
          store := [("k",
            { url := "u", clicks := 0, expiryType := some ExpiryKind.time,
              expiresAt := some 10, maxClicks := none })]
          heap := [⟨"k", 10⟩]
          opLog := []
          heapLog := [] } 20 "k").2.heap).map (fun e => e.shortCode)).contains "k" =
      true := by
  decide

/-- C2 amended: a Lookup that hits the cache on a now-expired record
performs the store deletion, the cache removal, and the EXPIRED log
record, and returns Expired -- but it does not remove the key from the
expiry scheduler: the heap (and the heap log) are left exactly as they
were, so the key can remain in the heapItems snapshot until the sweeper
extracts it. -/
theorem c2_lookup_expired_cache_hit (s : ServerState) (now : Int) (k : String)
    (d : LinkRecord)
    (hguard : ¬(k = "heap-state" ∨ k = "favicon.ico"))
    (hhas : assocHas s.cache k = true)
    (hu : (assocFind? s.cache k).getD "" ≠ "")
    (hd : assocFind? s.store k = some d)
    (hexp : isExpired now d = true) :
    lookupRoute s now k =
      (LookupOutcome.expired,
        { s with
          cache := assocDelete (assocSet (assocDelete s.cache k) k
            ((assocFind? s.cache k).getD "")) k
          store := assocDelete s.store k
          opLog := logOperation
            (assocDelete (assocSet (assocDelete s.cache k) k
              ((assocFind? s.cache k).getD "")) k).length
            (logOperation (assocSet (assocDelete s.cache k) k
              ((assocFind? s.cache k).getD "")).length s.opLog "HIT" k "O(1)" none)
            "EXPIRED" k "Deletion" (some (expiredReason d)) }) := by
  unfold lookupRoute
  rw [if_neg hguard]
  rw [getFromCache_of_has s.cache s.opLog k hhas]
  dsimp only
  rw [if_pos hu]
  simp only [hd]
  rw [if_pos hexp]

/-- Witness for C2's amended theorem: at the concrete expired state the
lookup answers Expired and leaves the heap entry in place. -/
theorem c2_lookup_expired_cache_hit_witness :
    (lookupRoute
        { cache := [("k", "u")]
          store := [("k",
            { url := "u", clicks := 0, expiryType := some ExpiryKind.time,
              expiresAt := some 10, maxClicks := none })]
          heap := [⟨"k", 10⟩]
          opLog := []
          heapLog := [] } 20 "k").1 = LookupOutcome.expired ∧
    (lookupRoute
        { cache := [("k", "u")]
          store := [("k",
            { url := "u", clicks := 0, expiryType := some ExpiryKind.time,
              expiresAt := some 10, maxClicks := none })]
          heap := [⟨"k", 10⟩]
          opLog := []
          heapLog := [] } 20 "k").2.heap = [⟨"k", 10⟩] := by
  have h := c2_lookup_expired_cache_hit
    { cache := [("k", "u")]
      store := [("k",
        { url := "u", clicks := 0, expiryType := some ExpiryKind.time,
          expiresAt := some 10, maxClicks := none })]
      heap := [⟨"k", 10⟩]
      opLog := []
      heapLog := [] } 20 "k"
    { url := "u", clicks := 0, expiryType := some ExpiryKind.time,
      expiresAt := some 10, maxClicks := none }
    (by decide) (by decide) (by decide) rfl (by decide)
  rw [h]
  exact ⟨rfl, rfl⟩

/-! ## Sweeper reductions -/

theorem extractMin_cons_fst (x : MinHeap.Entry) (xs : List MinHeap.Entry) :
    (MinHeap.extractMin (x :: xs)).1 = some x := by
  simp only [MinHeap.extractMin]
  split <;> rfl

theorem extractMin_cons_eq (x : MinHeap.Entry) (xs : List MinHeap.Entry) :
    MinHeap.extractMin (x :: xs) = (some x, (MinHeap.extractMin (x :: xs)).2) :=
  Prod.ext (extractMin_cons_fst x xs) rfl

theorem sweepExpireOne_spec (s : ServerState) (x : MinHeap.Entry)
    (xs : List MinHeap.Entry) (hheap : s.heap = x :: xs) :
    sweepExpireOne s =
      { cache := if assocHas s.cache x.shortCode then assocDelete s.cache x.shortCode
                 else s.cache
        store := assocDelete s.store x.shortCode
        heap := (MinHeap.extractMin (x :: xs)).2
        opLog := logOperation
          (if assocHas s.cache x.shortCode then assocDelete s.cache x.shortCode
           else s.cache).length s.opLog "EXPIRED" x.shortCode "Heap Extract"
          (some "Time Limit Reached (Priority Queue Cleaned)")
        heapLog := logHeapOperation (MinHeap.extractMin (x :: xs)).2.length
          (logHeapOperation (MinHeap.extractMin (x :: xs)).2.length s.heapLog
            "HEAP_EXTRACT" x.shortCode "O(log n)"
            (some "Time Limit Reached - Removed from queue"))
          "TTL_EXPIRED" x.shortCode "Heap Extract" (some "Time Limit Reached") } := by
  unfold sweepExpireOne
  rw [hheap, extractMin_cons_eq x xs]

theorem sweeperTickFuel_succ_expired (s : ServerState) (now : Int)
    (top : MinHeap.Entry) (rest : List MinHeap.Entry) (n : Nat)
    (hh : s.heap = top :: rest) (hexp : top.expiresAt ≤ now) :
    sweeperTickFuel s now (n + 1) = sweeperTickFuel (sweepExpireOne s) now n := by
  simp only [sweeperTickFuel]
  rw [hh]
  dsimp only
  rw [if_pos hexp]

theorem sweeperTickFuel_spec (fuel : Nat) :
    ∀ (s : ServerState) (now : Int), s.heap.length ≤ fuel →
      MinHeap.heapProp s.heap →
      (∀ e ∈ (sweeperTickFuel s now fuel).heap, e ∈ s.heap ∧ now < e.expiresAt) ∧
      MinHeap.heapProp (sweeperTickFuel s now fuel).heap ∧
      (∀ k, (∀ e ∈ s.heap, e.shortCode = k → now < e.expiresAt) →
        assocFind? (sweeperTickFuel s now fuel).store k = assocFind? s.store k ∧
        assocHas (sweeperTickFuel s now fuel).cache k = assocHas s.cache k) := by
  induction fuel with
  | zero =>
    intro s now hlen hp
    have hnil : s.heap = [] := List.length_eq_zero.mp (by omega)
    refine ⟨?_, hp, fun k _ => ⟨rfl, rfl⟩⟩
    intro e he
    have he' : e ∈ s.heap := he
    rw [hnil] at he'
    simp at he'
  | succ n ih =>
    intro s now hlen hp
    cases hheap : s.heap with
    | nil =>
      have hstep : sweeperTickFuel s now (n + 1) = s := by
        simp only [sweeperTickFuel]
        rw [hheap]
      rw [hstep]
      refine ⟨?_, hp, fun k _ => ⟨rfl, rfl⟩⟩
      intro e he
      rw [hheap] at he
      simp at he
    | cons top rest =>
      by_cases htop : top.expiresAt ≤ now
      · have hstep : sweeperTickFuel s now (n + 1) =
            sweeperTickFuel (sweepExpireOne s) now n :=
          sweeperTickFuel_succ_expired s now top rest n hheap htop
        have hone := sweepExpireOne_spec s top rest hheap
        have hheap1 : (sweepExpireOne s).heap = (MinHeap.extractMin (top :: rest)).2 := by
          rw [hone]
        have hslen : s.heap.length = rest.length + 1 := by
          rw [hheap]
          rfl
        have hlen1 : (sweepExpireOne s).heap.length ≤ n := by
          rw [hheap1, length_extractMin_snd]
          simp only [List.length_cons]
          omega
        have hp1 : MinHeap.heapProp (sweepExpireOne s).heap := by
          rw [hheap1]
          apply extractMin_heapProp
          rw [← hheap]
          exact hp
        obtain ⟨ih1, ih2, ih3⟩ := ih (sweepExpireOne s) now hlen1 hp1
        rw [hstep]
        have hmemsub : ∀ e ∈ (sweepExpireOne s).heap, e ∈ top :: rest := by
          intro e he
          rw [hheap1] at he
          exact mem_extractMin_snd he
        refine ⟨?_, ih2, ?_⟩
        · intro e he
          obtain ⟨he1, he2⟩ := ih1 e he
          exact ⟨hmemsub e he1, he2⟩
        · intro k hk
          have htopk : top.shortCode ≠ k := by
            intro heq
            have := hk top (List.mem_cons_self _ _) heq
            omega
          obtain ⟨ihs, ihc⟩ := ih3 k (fun e he heq => hk e (hmemsub e he) heq)
          constructor
          · rw [ihs, hone]
            exact assocFind?_assocDelete_of_ne s.store top.shortCode k (Ne.symm htopk)
          · rw [ihc, hone]
            dsimp only
            by_cases hch : assocHas s.cache top.shortCode = true
            · rw [if_pos hch]
              exact assocHas_assocDelete_of_ne s.cache top.shortCode k (Ne.symm htopk)
            · rw [if_neg hch]
      · have hstep : sweeperTickFuel s now (n + 1) = s := by
          simp only [sweeperTickFuel]
          rw [hheap]
          dsimp only
          rw [if_neg htop]
        rw [hstep]
        refine ⟨?_, hp, fun k _ => ⟨rfl, rfl⟩⟩
        intro e he
        rw [hheap] at he
        refine ⟨he, ?_⟩
        obtain ⟨j, hj, hje⟩ := exists_nthD_of_mem he
        have hroot := heapProp_root_min (top :: rest) (by rw [← hheap]; exact hp) j hj
        have hte : top.expiresAt ≤ e.expiresAt := by
          rw [← hje]
          exact hroot
        omega

/-! ## Claim C8: the sweeper tick -/

/-- C8: a sweeper tick inspects only the heap minimum.  It is a no-op
when the heap is empty or the minimum has not yet expired; when the
minimum has expired it runs sweepExpireOne -- deleting the record from
the store, removing the key from the cache if present, and logging an
EXPIRED record -- and continues.  After the tick, every remaining heap
entry was already in the heap and expires strictly after now, the heap
invariant I3 still holds, and any key all of whose heap entries are
unexpired (in particular any key not in the heap) keeps its store record
and its cache presence unchanged. -/
theorem c8_sweeper_tick (s : ServerState) (now : Int)
    (hp : MinHeap.childrenLeProp s.heap) :
    (s.heap = [] → sweeperTick s now = s) ∧
    (∀ top rest, s.heap = top :: rest → now < top.expiresAt →
      sweeperTick s now = s) ∧
    (∀ top rest, s.heap = top :: rest → top.expiresAt ≤ now →
      (sweepExpireOne s).store = assocDelete s.store top.shortCode ∧
      (sweepExpireOne s).cache = (if assocHas s.cache top.shortCode then
        assocDelete s.cache top.shortCode else s.cache) ∧
      (sweepExpireOne s).opLog = logOperation (sweepExpireOne s).cache.length s.opLog
        "EXPIRED" top.shortCode "Heap Extract"
        (some "Time Limit Reached (Priority Queue Cleaned)") ∧
      sweeperTick s now = sweeperTickFuel (sweepExpireOne s) now rest.length) ∧
    (∀ e ∈ (sweeperTick s now).heap, e ∈ s.heap ∧ now < e.expiresAt) ∧
    MinHeap.childrenLeProp (sweeperTick s now).heap ∧
    (∀ k, (∀ e ∈ s.heap, e.shortCode = k → now < e.expiresAt) →
      assocFind? (sweeperTick s now).store k = assocFind? s.store k ∧
      assocHas (sweeperTick s now).cache k = assocHas s.cache k) := by
  have hp' := (heapProp_iff_childrenLe _).mpr hp
  obtain ⟨h1, h2, h3⟩ := sweeperTickFuel_spec s.heap.length s now (le_refl _) hp'
  refine ⟨?_, ?_, ?_, h1, (heapProp_iff_childrenLe _).mp h2, h3⟩
  · intro hh
    unfold sweeperTick
    rw [hh]
    rfl
  · intro top rest hh hfut
    unfold sweeperTick
    rw [hh]
    simp only [List.length_cons, sweeperTickFuel]
    rw [hh]
    dsimp only
    rw [if_neg (by omega)]
  · intro top rest hh hexp
    have hone := sweepExpireOne_spec s top rest hh
    refine ⟨by rw [hone], by rw [hone], by rw [hone], ?_⟩
    unfold sweeperTick
    rw [hh]
    simp only [List.length_cons]
    exact sweeperTickFuel_succ_expired s now top rest rest.length hh hexp

/-- Witness for C8 at a concrete state with one expired heap entry. -/
theorem c8_sweeper_tick_witness :
    MinHeap.childrenLeProp [(⟨"k", 10⟩ : MinHeap.Entry)] ∧
    MinHeap.childrenLeProp (sweeperTick
      { cache := [("k", "u")]
        store := [("k",
          { url := "u", clicks := 0, expiryType := some ExpiryKind.time,
            expiresAt := some 10, maxClicks := none })]
        heap := [⟨"k", 10⟩]
        opLog := []
        heapLog := [] } 20).heap :=
  ⟨by decide,
    (c8_sweeper_tick
      { cache := [("k", "u")]
        store := [("k",
          { url := "u", clicks := 0, expiryType := some ExpiryKind.time,
            expiresAt := some 10, maxClicks := none })]
        heap := [⟨"k", 10⟩]
        opLog := []
        heapLog := [] } 20 (by decide)).2.2.2.2.1⟩
